import Mathlib

/-!
Verification of the logging library core: registry, dispatch, handler set
mutation, and event pooling.  Definitions are shallow embeddings of the Go
source (`logging.go`, `logger.go`, `handler.go`).  Go machine integers that
matter here (`Level`, flag words) never overflow in any claim, so they are
modelled as `Int`; Go interface references (handlers, argument values) are
modelled as opaque identifiers (`Nat`), since the source compares them by
reference identity.
-/

namespace Logging

/-!
## Levels (`logging.go`)

`VerboseLevel Level = (10 * iota) - 30` and successors, so the values are
-30, -20, -10, 0, 10, 20.
-/

def VerboseLevel : Int := -30

def DebugLevel : Int := -20

def InfoLevel : Int := -10

def WarnLevel : Int := 0

def ErrorLevel : Int := 10

def FatalLevel : Int := 20

/-!
## Events (`logging.go`)

`Event` carries name, time, level, message, argument list and caller
location.  The argument list `Args []interface{}` is a Go slice: it has an
underlying store (whose length is the capacity actually backing the
visible part) and a visible length.  Slots hold `Option Nat`: `none` is a
nil interface slot, `some v` an argument value reference.
-/

structure ArgsSlice where
  store : List (Option Nat)
  len : Nat
deriving DecidableEq, Repr

structure Event where
  Name : String
  Time : Nat
  Level : Int
  Msg : String
  Args : ArgsSlice
  FuncName : String
  File : String
  Line : Int
deriving DecidableEq, Repr

/-!
## Logger dispatch state (`logger.go`)

A `Logger` holds a parent pointer, a handler slice, and a packed `flags`
word.  The parent chain built by the registry is finite and acyclic (a
parent name is always a strict prefix of the child name), so a logger
together with its ancestors is embedded as a node plus the list of its
ancestors, nearest parent first.

Modelled from the spec: the `flags` word packs the `Level` into its low
bits (`levelMask`, whose definition is not in the available source) and a
`noPropagateFlag` bit above them; `Level()`, `SetLevel`, `Propagate()` and
`SetPropagate` read and write those components independently and
round-trip.  The word is therefore embedded as its two components: `level`
and `noPropagate`.  The zero value of the word has `level = 0` and
`noPropagate = false`.
-/

structure LNode where
  name : String
  level : Int
  noPropagate : Bool
  handlers : List Nat
deriving DecidableEq, Repr

/-- `Propagate()` returns true when `noPropagateFlag` is unset. -/
def LNode.Propagate (nd : LNode) : Bool := !nd.noPropagate

/--
`doLogEvent` (`logger.go`).  If the event level meets the logger level,
`Emit` is called on every handler of the current snapshot in order; then,
if a parent exists and propagation is on, the parent repeats the step.
The returned list is the trace of `Emit` calls, each tagged with the name
of the logger whose snapshot the handler came from.
-/
def doLogEvent : LNode → List LNode → Event → List (String × Nat × Event)
  | nd, anc, e =>
    (if e.Level ≥ nd.level then nd.handlers.map (fun h => (nd.name, h, e)) else [])
      ++ (match anc with
          | [] => []
          | p :: rest => if nd.Propagate then doLogEvent p rest e else [])

/--
The loop body of `EffectiveLevel` (`logger.go`): while the current logger
propagates, step to the parent (stopping at nil) and lower the running
minimum to the parent level when it is smaller.
-/
def effectiveLevelLoop : LNode → List LNode → Int → Int
  | nd, anc, minLevel =>
    if nd.Propagate then
      match anc with
      | [] => minLevel
      | p :: rest =>
        effectiveLevelLoop p rest (if p.level < minLevel then p.level else minLevel)
    else minLevel

/-- `EffectiveLevel` (`logger.go`): the loop started at the logger level. -/
def EffectiveLevel (nd : LNode) (anc : List LNode) : Int :=
  effectiveLevelLoop nd anc nd.level

/--
Spec-side definition for claim C5, following the words of the spec: the
logger itself together with every ancestor reachable through an unbroken
chain of loggers below it whose propagation flags are all enabled.
-/
def propagationChain : LNode → List LNode → List LNode
  | nd, anc =>
    nd :: (match anc with
           | [] => []
           | p :: rest => if nd.Propagate then propagationChain p rest else [])

/-!
## Dispatch lemmas
-/

theorem doLogEvent_nil (nd : LNode) (e : Event) :
    doLogEvent nd [] e =
      (if e.Level ≥ nd.level then nd.handlers.map (fun h => (nd.name, h, e)) else []) := by
  rw [doLogEvent.eq_def]; simp

theorem doLogEvent_cons (nd p : LNode) (rest : List LNode) (e : Event) :
    doLogEvent nd (p :: rest) e =
      (if e.Level ≥ nd.level then nd.handlers.map (fun h => (nd.name, h, e)) else [])
        ++ (if nd.Propagate then doLogEvent p rest e else []) := rfl

/-- Every `Emit` call in the trace is tagged with the name of the logger it
came from: the originating logger or one of its ancestors. -/
theorem mem_doLogEvent_name (e : Event) :
    ∀ (anc : List LNode) (nd : LNode) (x : String × Nat × Event),
      x ∈ doLogEvent nd anc e → x.1 = nd.name ∨ x.1 ∈ anc.map LNode.name := by
  intro anc
  induction anc with
  | nil =>
    intro nd x hx
    rw [doLogEvent_nil] at hx
    split at hx
    · rcases List.mem_map.mp hx with ⟨h, _, rfl⟩
      exact Or.inl rfl
    · simp at hx
  | cons p rest ih =>
    intro nd x hx
    rw [doLogEvent_cons] at hx
    rcases List.mem_append.mp hx with hown | hpar
    · split at hown
      · rcases List.mem_map.mp hown with ⟨h, _, rfl⟩
        exact Or.inl rfl
      · simp at hown
    · split at hpar
      · rcases ih p x hpar with h1 | h2
        · right; simp [h1]
        · right; simp only [List.map_cons, List.mem_cons]; right; exact h2
      · simp at hpar

/-- The originating logger feeds a handler its event exactly when the event
level meets the logger level, provided the originating logger name differs
from every ancestor name (which the registry guarantees: a parent name is a
strict prefix of the child name). -/
theorem mem_doLogEvent_self (nd : LNode) (anc : List LNode) (e : Event)
    (hname : ∀ p ∈ anc, p.name ≠ nd.name) (h : Nat) :
    (nd.name, h, e) ∈ doLogEvent nd anc e ↔ (e.Level ≥ nd.level ∧ h ∈ nd.handlers) := by
  constructor
  · intro hx
    have hsplit : (nd.name, h, e) ∈
        (if e.Level ≥ nd.level then nd.handlers.map (fun h => (nd.name, h, e)) else [])
        ∨ ∃ p rest, anc = p :: rest ∧ nd.Propagate
            ∧ (nd.name, h, e) ∈ doLogEvent p rest e := by
      cases anc with
      | nil => rw [doLogEvent_nil] at hx; exact Or.inl hx
      | cons p rest =>
        rw [doLogEvent_cons] at hx
        rcases List.mem_append.mp hx with hown | hpar
        · exact Or.inl hown
        · split at hpar
          · exact Or.inr ⟨p, rest, rfl, by assumption, hpar⟩
          · simp at hpar
    rcases hsplit with hown | ⟨p, rest, rfl, _, hpar⟩
    · split at hown
      · rcases List.mem_map.mp hown with ⟨h2, hmem, heq⟩
        have : h2 = h := by
          have := congrArg (fun y => y.2.1) heq
          simpa using this
        subst this
        exact ⟨by assumption, hmem⟩
      · simp at hown
    · exfalso
      rcases mem_doLogEvent_name e rest p _ hpar with h1 | h2
      · exact hname p (by simp) h1.symm
      · rcases List.mem_map.mp h2 with ⟨q, hq, hqn⟩
        exact hname q (by simp [hq]) hqn
  · rintro ⟨hlev, hmem⟩
    have hself : (nd.name, h, e) ∈
        (if e.Level ≥ nd.level then nd.handlers.map (fun h => (nd.name, h, e)) else []) := by
      rw [if_pos hlev]
      exact List.mem_map.mpr ⟨h, hmem, rfl⟩
    cases anc with
    | nil => rw [doLogEvent_nil]; exact hself
    | cons p rest => rw [doLogEvent_cons]; exact List.mem_append.mpr (Or.inl hself)

/-- Claim C1: for every logger whose level is Warn, a log call at Info level
never invokes the `Emit` of any handler attached to that logger, a log call
at Error level invokes `Emit` on every handler in the snapshot taken at call
time, and in general a handler of a logger receives an event through that
logger exactly when the event level is at least the logger level. -/
theorem C1_threshold_gating (nd : LNode) (anc : List LNode)
    (hname : ∀ p ∈ anc, p.name ≠ nd.name) :
    (∀ e : Event, nd.level = WarnLevel → e.Level = InfoLevel →
        ∀ h, (nd.name, h, e) ∉ doLogEvent nd anc e)
    ∧ (∀ e : Event, nd.level = WarnLevel → e.Level = ErrorLevel →
        ∀ h ∈ nd.handlers, (nd.name, h, e) ∈ doLogEvent nd anc e)
    ∧ (∀ e : Event, ∀ h ∈ nd.handlers,
        ((nd.name, h, e) ∈ doLogEvent nd anc e ↔ e.Level ≥ nd.level)) := by
  refine ⟨?_, ?_, ?_⟩
  · intro e hw hi h hmem
    rcases (mem_doLogEvent_self nd anc e hname h).mp hmem with ⟨hge, _⟩
    rw [hw, hi] at hge
    simp [InfoLevel, WarnLevel] at hge
  · intro e hw he h hmem
    exact (mem_doLogEvent_self nd anc e hname h).mpr
      ⟨by rw [hw, he]; simp [ErrorLevel, WarnLevel], hmem⟩
  · intro e h hmem
    constructor
    · intro hx
      exact ((mem_doLogEvent_self nd anc e hname h).mp hx).1
    · intro hge
      exact (mem_doLogEvent_self nd anc e hname h).mpr ⟨hge, hmem⟩

/-- Concrete logger used by the C1 witness. -/
def ndW1 : LNode := ⟨"x", WarnLevel, false, [5]⟩

/-- Concrete ancestor chain used by the C1 witness. -/
def ancW1 : List LNode := [⟨"p", VerboseLevel, false, [7]⟩]

/-- Witness for C1 at a concrete logger with one low-level ancestor. -/
theorem C1_threshold_gating_witness :
    (∀ p ∈ ancW1, p.name ≠ ndW1.name)
    ∧ ((∀ e : Event, ndW1.level = WarnLevel → e.Level = InfoLevel →
          ∀ h, (ndW1.name, h, e) ∉ doLogEvent ndW1 ancW1 e)
      ∧ (∀ e : Event, ndW1.level = WarnLevel → e.Level = ErrorLevel →
          ∀ h ∈ ndW1.handlers, (ndW1.name, h, e) ∈ doLogEvent ndW1 ancW1 e)
      ∧ (∀ e : Event, ∀ h ∈ ndW1.handlers,
          ((ndW1.name, h, e) ∈ doLogEvent ndW1 ancW1 e ↔ e.Level ≥ ndW1.level))) :=
  ⟨by decide, C1_threshold_gating ndW1 ancW1 (by decide)⟩

/-- Claim C3: with loggers "a" and "a/b" (propagation enabled, one handler
each, default Warn level), a Warn log call on "a/b" produces exactly the
trace in which the "a/b" handler is invoked strictly before the "a" handler
and both receive the very same event record (same message, argument list
and timestamp). -/
theorem C3_propagation_order (ha hb : Nat) (t : Nat) (msg : String)
    (args : ArgsSlice) (fn fl : String) (line : Int) :
    doLogEvent ⟨"a/b", WarnLevel, false, [hb]⟩ [⟨"a", WarnLevel, false, [ha]⟩]
        ⟨"a/b", t, WarnLevel, msg, args, fn, fl, line⟩
      = [("a/b", hb, ⟨"a/b", t, WarnLevel, msg, args, fn, fl, line⟩),
         ("a", ha, ⟨"a/b", t, WarnLevel, msg, args, fn, fl, line⟩)] := rfl

/-- Claim C4: with propagation disabled on "a/b", no log call on "a/b"
ever invokes the handler of "a", while the handler of "a/b" still receives
exactly the events that pass the "a/b" threshold. -/
theorem C4_propagation_stop (ha hb : Nat) (plvl clvl : Int) (e : Event) :
    (∀ (h : Nat) (ev : Event),
        ("a", h, ev) ∉ doLogEvent ⟨"a/b", clvl, true, [hb]⟩ [⟨"a", plvl, false, [ha]⟩] e)
    ∧ (("a/b", hb, e) ∈ doLogEvent ⟨"a/b", clvl, true, [hb]⟩ [⟨"a", plvl, false, [ha]⟩] e
        ↔ e.Level ≥ clvl) := by
  constructor
  · intro h ev hmem
    rw [doLogEvent_cons] at hmem
    simp only [LNode.Propagate, Bool.not_true, if_neg] at hmem
    rcases List.mem_append.mp hmem with hown | hpar
    · split at hown
      · simp at hown
      · simp at hown
    · simp at hpar
  · rw [doLogEvent_cons]
    simp only [LNode.Propagate, Bool.not_true]
    constructor
    · intro hmem
      rcases List.mem_append.mp hmem with hown | hpar
      · split at hown
        · assumption
        · simp at hown
      · simp at hpar
    · intro hge
      refine List.mem_append.mpr (Or.inl ?_)
      rw [if_pos hge]
      simp

/-!
## EffectiveLevel lemmas
-/

theorem effectiveLevelLoop_nil (nd : LNode) (m : Int) :
    effectiveLevelLoop nd [] m = m := by
  cases hp : nd.Propagate <;> simp [effectiveLevelLoop, hp]

theorem effectiveLevelLoop_cons (nd p : LNode) (rest : List LNode) (m : Int) :
    effectiveLevelLoop nd (p :: rest) m =
      if nd.Propagate then
        effectiveLevelLoop p rest (if p.level < m then p.level else m)
      else m := rfl

theorem propagationChain_nil (nd : LNode) : propagationChain nd [] = [nd] := rfl

theorem propagationChain_cons (nd p : LNode) (rest : List LNode) :
    propagationChain nd (p :: rest) =
      nd :: (if nd.Propagate then propagationChain p rest else []) := rfl

theorem propagationChain_head (nd : LNode) (anc : List LNode) :
    propagationChain nd anc = nd :: (propagationChain nd anc).tail := by
  cases anc <;> rfl

theorem min_if (a b : Int) : (if b < a then b else a) = min a b := by
  rw [min_def]
  split <;> split <;> omega

/-- The `EffectiveLevel` loop computes the fold of `min` over the levels of
the propagate-reachable ancestors. -/
theorem effectiveLevelLoop_eq_foldl :
    ∀ (anc : List LNode) (nd : LNode) (m : Int),
      effectiveLevelLoop nd anc m =
        ((propagationChain nd anc).tail.map LNode.level).foldl min m := by
  intro anc
  induction anc with
  | nil =>
    intro nd m
    rw [effectiveLevelLoop_nil, propagationChain_nil]
    rfl
  | cons p rest ih =>
    intro nd m
    rw [effectiveLevelLoop_cons, propagationChain_cons]
    by_cases hp : nd.Propagate
    · rw [if_pos hp, if_pos hp, ih, min_if]
      rw [propagationChain_head p rest]
      simp [List.foldl]
    · rw [if_neg hp, if_neg hp]
      rfl

/-- Claim C5: `EffectiveLevel` returns the minimum level among the logger
and every ancestor reachable through an unbroken chain of enabled
propagation flags; in particular for the chain "a"(Warn) with child
"a/b"(Debug, propagate on), the effective level of "a/b" is Debug. -/
theorem C5_effective_level (nd : LNode) (anc : List LNode) :
    ((propagationChain nd anc).map LNode.level).min? = some (EffectiveLevel nd anc)
    ∧ EffectiveLevel ⟨"a/b", DebugLevel, false, []⟩ [⟨"a", WarnLevel, false, []⟩]
        = DebugLevel := by
  constructor
  · rw [EffectiveLevel, effectiveLevelLoop_eq_foldl]
    rw [propagationChain_head nd anc]
    rfl
  · decide

/-!
## Handler set removal (`logger.go`, `RemoveHandlers`)

Handlers are Go interface values held behind references; the `==` used by
`RemoveHandlers` compares those references, so a handler is embedded as its
reference identity (a `Nat`), with any contents living behind it.
-/

/--
`RemoveHandlers` (`logger.go`): on empty victim list or empty current
snapshot, return the snapshot unchanged; otherwise rebuild the sequence,
keeping each current handler unless its identity equals some victim, and
install the result (the CAS retry loop is invisible without concurrent
writers: a single build-and-swap).
-/
def RemoveHandlers (oldHandlers : List Nat) (hs : List Nat) : List Nat :=
  if hs = [] then oldHandlers
  else if oldHandlers = [] then oldHandlers
  else oldHandlers.foldl
    (fun newHandlers oldH =>
      if hs.any (fun newH => oldH == newH) then newHandlers
      else newHandlers ++ [oldH]) []

theorem removeHandlers_foldl (hs : List Nat) :
    ∀ (l acc : List Nat),
      l.foldl (fun newHandlers oldH =>
          if hs.any (fun newH => oldH == newH) then newHandlers
          else newHandlers ++ [oldH]) acc
        = acc ++ l.filter (fun h => !(hs.contains h)) := by
  intro l
  induction l with
  | nil => intro acc; simp
  | cons x xs ih =>
    intro acc
    by_cases hx : hs.contains x
    · have hany : hs.any (fun newH => x == newH) = true := by
        rcases List.mem_of_elem_eq_true hx with hmem
        exact List.any_eq_true.mpr ⟨x, hmem, by simp⟩
      simp only [List.foldl, List.filter]
      rw [if_pos hany, ih, hx]
      simp
    · have hany : hs.any (fun newH => x == newH) = false := by
        rw [List.any_eq_false]
        intro y hy
        simp only [beq_iff_eq]
        intro hxy
        exact hx (by rw [hxy]; exact List.elem_eq_true_of_mem hy)
      have hxc : hs.contains x = false := by
        cases hc : hs.contains x
        · rfl
        · exact absurd hc hx
      simp only [List.foldl, List.filter]
      rw [if_neg (by simp [hany]), ih, hxc]
      simp

/-- Claim C7: after `RemoveHandlers`, the handler sequence holds exactly the
previously held handlers whose identity matches no victim, in original
order; the comparison is reference identity, so two distinct handler
instances with equal contents are distinct, and removing one leaves the
other in place. -/
theorem C7_remove_handlers (cur hs : List Nat) (contents : Nat → String)
    (h1 h2 : Nat) (hne : h1 ≠ h2) (_hceq : contents h1 = contents h2) :
    RemoveHandlers cur hs = cur.filter (fun h => !(hs.contains h))
    ∧ RemoveHandlers [h1, h2] [h1] = [h2] := by
  constructor
  · rw [RemoveHandlers]
    by_cases hhs : hs = []
    · subst hhs; simp
    · rw [if_neg hhs]
      by_cases hcur : cur = []
      · subst hcur; simp
      · rw [if_neg hcur, removeHandlers_foldl]
        simp
  · rw [RemoveHandlers]
    have : ¬([h1, h2] = ([] : List Nat)) := by simp
    rw [if_neg (by simp), if_neg this, removeHandlers_foldl]
    simp only [List.nil_append]
    have c1 : [h1].contains h1 = true := by simp
    have c2 : [h1].contains h2 = false := by
      simp only [List.contains_cons, List.contains_nil, Bool.or_false, beq_iff_eq]
      exact decide_eq_false (fun he => hne he.symm)
    simp [List.filter, c1, c2, Ne.symm hne]

/-- Witness for C7: two distinct handler identities with equal contents;
removing the first leaves the second. -/
theorem C7_remove_handlers_witness :
    (0 ≠ 1) ∧ ((fun _ : Nat => "cfg") 0 = (fun _ : Nat => "cfg") 1)
    ∧ (RemoveHandlers [3, 4] [4] = [3, 4].filter (fun h => !(([4] : List Nat).contains h))
       ∧ RemoveHandlers [0, 1] [0] = [1]) :=
  ⟨by decide, rfl, C7_remove_handlers [3, 4] [4] (fun _ => "cfg") 0 1 (by decide) rfl⟩

/-!
## Event pool, current variant (`logger.go`: `logPool`, `putEvent`,
`getArgs`)

`freeArgs` is a single free list of argument buffers; a freed buffer is
the truncated slice (visible length 0) over its original backing store.
-/

structure PoolState where
  freeArgs : List ArgsSlice
  freeEvents : List Event
deriving DecidableEq, Repr

/-- The clearing loop of `putEvent`: `for i := range ev.Args` sets the
first `len` slots of the backing store to nil. -/
def clearSlots : List (Option Nat) → Nat → List (Option Nat)
  | l, 0 => l
  | [], _ + 1 => []
  | _ :: rest, n + 1 => none :: clearSlots rest n

/--
`putEvent` (`logger.go`, current variant): clear every visible slot of
`ev.Args`, truncate the slice to length 0 over the same backing store,
append that buffer to `freeArgs` unconditionally, detach the slice from
the event, and append the event to `freeEvents`.
-/
def putEvent (p : PoolState) (ev : Event) : PoolState :=
  let cleared : ArgsSlice := ⟨clearSlots ev.Args.store ev.Args.len, 0⟩
  { freeArgs := p.freeArgs ++ [cleared],
    freeEvents := p.freeEvents ++ [{ ev with Args := ⟨[], 0⟩ }] }

/-- `ifacePerCacheLine` on a 64-bit machine: 64 / (64 >> 2) = 4. -/
def ifacePerCacheLine : Nat := 4

/--
`getArgs` (`logger.go`, current variant): pop the most recently freed
buffer; when the free list is empty the source refills it with freshly
allocated cache-line-aligned empty buffers, modelled as handing out one
fresh empty buffer (the alignment machinery is a hardware
micro-optimization orthogonal to the claims).
-/
def getArgs (p : PoolState) : PoolState × ArgsSlice :=
  match p.freeArgs.getLast? with
  | some b => ({ p with freeArgs := p.freeArgs.dropLast }, b)
  | none => (p, ⟨List.replicate ifacePerCacheLine none, 0⟩)

theorem clearSlots_getD :
    ∀ (store : List (Option Nat)) (len i : Nat),
      (clearSlots store len).getD i none
        = if i < len then none else store.getD i none := by
  intro store
  induction store with
  | nil =>
    intro len i
    cases len with
    | zero => simp [clearSlots]
    | succ n => simp [clearSlots]
  | cons x rest ih =>
    intro len i
    cases len with
    | zero => simp [clearSlots]
    | succ n =>
      cases i with
      | zero => simp [clearSlots]
      | succ j =>
        simp only [clearSlots, List.getD_cons_succ, ih n j]
        by_cases hj : j < n
        · rw [if_pos hj, if_pos (by omega)]
        · rw [if_neg hj, if_neg (by omega)]

theorem drop_none_getD (l : List (Option Nat)) (n : Nat)
    (h : ∀ v ∈ l.drop n, v = none) (i : Nat) (hi : n ≤ i) :
    l.getD i none = none := by
  rw [List.getD_eq_getElem?_getD]
  cases hl : l[i]? with
  | none => rfl
  | some v =>
    have hv : v ∈ l.drop n := by
      have h2 : (l.drop n)[i - n]? = some v := by
        rw [List.getElem?_drop]
        rwa [Nat.add_sub_cancel' hi]
      exact List.getElem?_mem h2
    simp [h v hv]

/-- Claim C9: the buffer recycled by `putEvent` has every visible slot
cleared, and — given that the slots beyond the visible length were already
clear, which holds of every buffer the pool hands out — every slot of its
backing store holds no reference at all once it is back on the free
list. -/
theorem C9_pool_non_leak (p : PoolState) (ev : Event)
    (hbeyond : ∀ v ∈ ev.Args.store.drop ev.Args.len, v = none) :
    ∀ b : ArgsSlice, (putEvent p ev).freeArgs.getLast? = some b →
      b.len = 0 ∧ ∀ i, b.store.getD i none = none := by
  intro b hb
  rw [putEvent] at hb
  simp only [List.getLast?_concat, Option.some.injEq] at hb
  subst hb
  refine ⟨rfl, ?_⟩
  intro i
  rw [clearSlots_getD]
  by_cases hi : i < ev.Args.len
  · rw [if_pos hi]
  · rw [if_neg hi]
    exact drop_none_getD _ _ hbeyond i (by omega)

/-- Concrete event used by the C9 witness: two argument values held in a
buffer of backing size two. -/
def evW9 : Event := ⟨"n", 0, 0, "m", ⟨[some 3, some 4], 2⟩, "f", "fl", 0⟩

/-- Witness for C9 at a concrete event. -/
theorem C9_pool_non_leak_witness :
    (∀ v ∈ evW9.Args.store.drop evW9.Args.len, v = none)
    ∧ (∀ b : ArgsSlice, (putEvent ⟨[], []⟩ evW9).freeArgs.getLast? = some b →
        b.len = 0 ∧ ∀ i, b.store.getD i none = none) :=
  ⟨by decide, C9_pool_non_leak ⟨[], []⟩ evW9 (by decide)⟩

/-- Concrete event used against C8: ten argument values, backing size ten,
outside the bucketed range 1..4. -/
def evW8 : Event := ⟨"n", 0, 0, "m", ⟨List.replicate 10 (some 1), 10⟩, "f", "fl", 0⟩

/-- Counterexample to claim C8 as stated: in the current pool, `putEvent`
places the cleared argument buffer on the free list even though its
backing size 10 lies outside the bucketed range 1..4, and the very next
borrow receives exactly that oversized buffer. -/
theorem C8_counterexample :
    4 < 10
    ∧ (putEvent ⟨[], []⟩ evW8).freeArgs = [⟨List.replicate 10 none, 0⟩]
    ∧ (getArgs (putEvent ⟨[], []⟩ evW8)).2 = ⟨List.replicate 10 none, 0⟩ := by
  refine ⟨by decide, by decide, by decide⟩

/-!
## Bucketed argument pools, historical variant (`logger.go`:
`logPool.argsPools`, `poolArgsSlice`, `getArgsSlice`)

`argsPools` is the `[4]sync.Pool` array: one stack of free slices per
slice length 1..4.  `sync.Pool.Put` is modelled as a push and
`sync.Pool.Get` as a pop falling back to the registered allocator, which
for bucket `i` makes a fresh slice of length `i + 1`.
-/

def poolArgsSlice (argsPools : List (List (List (Option Nat))))
    (s : List (Option Nat)) : List (List (List (Option Nat))) :=
  if 0 < s.length then
    let index := s.length - 1
    if index < argsPools.length then
      argsPools.set index (s :: argsPools.getD index [])
    else argsPools
  else argsPools

/-- `getArgsSlice` (historical variant).  Callers only pass lengths 1..4
through `createEventNFromCaller`; for length 0 the Go code would index
`argsPools[-1]` and panic, a case no caller reaches. -/
def getArgsSlice (argsPools : List (List (List (Option Nat))))
    (length : Nat) : List (List (List (Option Nat))) × List (Option Nat) :=
  let index := length - 1
  if index < argsPools.length then
    match argsPools.getD index [] with
    | s :: rest => (argsPools.set index rest, s)
    | [] => (argsPools, List.replicate length none)
  else (argsPools, List.replicate length none)

/-- Claim C8 amended: in the bucketed pools of the historical variant, a
returned args slice is pushed onto its size bucket only when its length
is within 1..4; an oversized slice leaves the pools unchanged
(discarded); and a borrow of a size above the bucketed range always
allocates a fresh zeroed slice, never a pooled one. -/
theorem C8_oversized_not_pooled (argsPools : List (List (List (Option Nat))))
    (s : List (Option Nat)) (n : Nat)
    (hlen : argsPools.length = 4) (hs : 4 < s.length) (hn : 4 < n) :
    poolArgsSlice argsPools s = argsPools
    ∧ getArgsSlice argsPools n = (argsPools, List.replicate n none)
    ∧ (∀ t : List (Option Nat), 1 ≤ t.length → t.length ≤ 4 →
        poolArgsSlice argsPools t
          = argsPools.set (t.length - 1) (t :: argsPools.getD (t.length - 1) [])) := by
  refine ⟨?_, ?_, ?_⟩
  · rw [poolArgsSlice]
    rw [if_pos (by omega), if_neg (by omega)]
  · rw [getArgsSlice]
    rw [if_neg (show ¬(n - 1 < argsPools.length) by omega)]
  · intro t ht1 ht4
    rw [poolArgsSlice]
    rw [if_pos (by omega), if_pos (by omega)]

/-- Witness for the amended C8 at four empty buckets, an oversized slice
of length 5 and a borrow of size 5. -/
theorem C8_oversized_not_pooled_witness :
    (([[], [], [], []] : List (List (List (Option Nat)))).length = 4)
    ∧ (4 < (List.replicate 5 (none : Option Nat)).length)
    ∧ (4 < 5)
    ∧ (poolArgsSlice [[], [], [], []] (List.replicate 5 none) = [[], [], [], []]
      ∧ getArgsSlice [[], [], [], []] 5 = ([[], [], [], []], List.replicate 5 none)
      ∧ (∀ t : List (Option Nat), 1 ≤ t.length → t.length ≤ 4 →
          poolArgsSlice [[], [], [], []] t
            = ([[], [], [], []] : List (List (List (Option Nat)))).set (t.length - 1)
                (t :: ([[], [], [], []] : List (List (List (Option Nat)))).getD (t.length - 1) []))) :=
  ⟨by decide, by decide, by decide,
    C8_oversized_not_pooled [[], [], [], []] (List.replicate 5 none) 5
      (by decide) (by decide) (by decide)⟩

/-!
## Registry (`logger.go`: `loggers`, `GetLogger`, `createLogger`)

Logger names are embedded as `List Char`; the `sync.Map` is an association
list written only through the get-or-create path; logger objects live in an
append-only store indexed by allocation order, so object identity is the
index.  `getLogger` is the no-options `GetLogger` path under sequential
execution: `Load`, on miss `createLogger`, then `LoadOrStore`.
-/

structure RLogger where
  parent : Option Nat
  name : List Char
  level : Int
  noPropagate : Bool
  handlers : List Nat
deriving DecidableEq, Repr

structure Registry where
  objs : List RLogger
  table : List (List Char × Nat)
deriving DecidableEq, Repr

def lookupTable : List (List Char × Nat) → List Char → Option Nat
  | [], _ => none
  | (k, v) :: rest, n => if k = n then some v else lookupTable rest n

def lastIndexOfSlash : List Char → Option Nat
  | [] => none
  | c :: rest =>
    match lastIndexOfSlash rest with
    | some i => some (i + 1)
    | none => if c = '/' then some 0 else none

theorem lastIndexOfSlash_lt :
    ∀ (s : List Char) (i : Nat), lastIndexOfSlash s = some i → i < s.length := by
  intro s
  induction s with
  | nil => intro i h; simp [lastIndexOfSlash] at h
  | cons c rest ih =>
    intro i h
    rw [lastIndexOfSlash] at h
    cases hr : lastIndexOfSlash rest with
    | some j =>
      rw [hr] at h
      have := ih j hr
      simp at h
      simp only [List.length_cons]
      omega
    | none =>
      rw [hr] at h
      simp at h
      obtain ⟨-, h2⟩ := h
      simp only [List.length_cons]
      omega

def allocLogger (reg : Registry) (name : List Char) (parent : Option Nat) :
    Registry × Nat :=
  (⟨reg.objs ++ [⟨parent, name, 0, false, []⟩], reg.table⟩, reg.objs.length)

def getLogger (reg : Registry) (name : List Char) : Registry × Nat :=
  match lookupTable reg.table name with
  | some id => (reg, id)
  | none =>
    let created :=
      match h : lastIndexOfSlash name with
      | none => allocLogger reg name none
      | some i =>
        let pr := getLogger reg (name.take i)
        allocLogger pr.1 name (some pr.2)
    match lookupTable created.1.table name with
    | some id2 => (created.1, id2)
    | none => (⟨created.1.objs, created.1.table ++ [(name, created.2)]⟩, created.2)
termination_by name.length
decreasing_by
  have := lastIndexOfSlash_lt name i h
  simp [List.length_take]
  omega

def createLogger (reg : Registry) (name : List Char) : Registry × Nat :=
  match lastIndexOfSlash name with
  | none => allocLogger reg name none
  | some i =>
    let pr := getLogger reg (name.take i)
    allocLogger pr.1 name (some pr.2)

/-- The `LoadOrStore` step of `GetLogger`: if the key has appeared, return
the stored logger; otherwise store the created one and return it. -/
def loadOrStore (pr : Registry × Nat) (name : List Char) : Registry × Nat :=
  match lookupTable pr.1.table name with
  | some id2 => (pr.1, id2)
  | none => (⟨pr.1.objs, pr.1.table ++ [(name, pr.2)]⟩, pr.2)

theorem getLogger_hit (reg : Registry) (name : List Char) (id : Nat)
    (h : lookupTable reg.table name = some id) :
    getLogger reg name = (reg, id) := by
  rw [getLogger.eq_def, h]

theorem getLogger_miss (reg : Registry) (name : List Char)
    (h : lookupTable reg.table name = none) :
    getLogger reg name = loadOrStore (createLogger reg name) name := by
  rw [getLogger.eq_def, h]
  cases hls : lastIndexOfSlash name with
  | none => simp only [hls, createLogger, loadOrStore]
  | some i => simp only [hls, createLogger, loadOrStore]

theorem lookupTable_append_some (t1 t2 : List (List Char × Nat)) (n : List Char)
    (v : Nat) (h : lookupTable t1 n = some v) :
    lookupTable (t1 ++ t2) n = some v := by
  induction t1 with
  | nil => simp [lookupTable] at h
  | cons kv rest ih =>
    obtain ⟨k, w⟩ := kv
    rw [lookupTable] at h
    by_cases hk : k = n
    · rw [List.cons_append, lookupTable, if_pos hk]
      rwa [if_pos hk] at h
    · rw [List.cons_append, lookupTable, if_neg hk]
      rw [if_neg hk] at h
      exact ih h

theorem lookupTable_append_none (t1 t2 : List (List Char × Nat)) (n : List Char)
    (h : lookupTable t1 n = none) :
    lookupTable (t1 ++ t2) n = lookupTable t2 n := by
  induction t1 with
  | nil => simp
  | cons kv rest ih =>
    obtain ⟨k, w⟩ := kv
    rw [lookupTable] at h
    by_cases hk : k = n
    · rw [if_pos hk] at h
      simp at h
    · rw [if_neg hk] at h
      rw [List.cons_append, lookupTable, if_neg hk]
      exact ih h

theorem lookupTable_store_self (t : List (List Char × Nat)) (n : List Char) (id : Nat)
    (h : lookupTable t n = none) :
    lookupTable (t ++ [(n, id)]) n = some id := by
  rw [lookupTable_append_none _ _ _ h, lookupTable, if_pos rfl]

theorem lookupTable_none_of_all_ne (t : List (List Char × Nat)) (n : List Char)
    (h : ∀ kv ∈ t, kv.1 ≠ n) :
    lookupTable t n = none := by
  induction t with
  | nil => rfl
  | cons kv rest ih =>
    obtain ⟨k, w⟩ := kv
    rw [lookupTable, if_neg (h (k, w) (by simp))]
    exact ih (fun kv hkv => h kv (by simp [hkv]))

/-- A `GetLogger` call only appends to the object store and to the name
table, and every appended table key is at most as long as the requested
name. -/
theorem getLogger_extend_aux :
    ∀ (k : Nat) (name : List Char), name.length < k → ∀ (reg : Registry),
      (∃ o2, (getLogger reg name).1.objs = reg.objs ++ o2)
      ∧ (∃ t2, (getLogger reg name).1.table = reg.table ++ t2
          ∧ ∀ kv ∈ t2, kv.1.length ≤ name.length) := by
  intro k
  induction k with
  | zero => intro name hlen; omega
  | succ k ih =>
    intro name hlen reg
    cases hl : lookupTable reg.table name with
    | some id =>
      rw [getLogger_hit _ _ _ hl]
      exact ⟨⟨[], by simp⟩, ⟨[], by simp, by simp⟩⟩
    | none =>
      rw [getLogger_miss _ _ hl, createLogger]
      cases hls : lastIndexOfSlash name with
      | none =>
        rw [loadOrStore, allocLogger]
        simp only [hl]
        exact ⟨⟨_, rfl⟩, ⟨[(name, reg.objs.length)], rfl, by simp⟩⟩
      | some i =>
        have hi := lastIndexOfSlash_lt name i hls
        have htake : (name.take i).length = i := by
          simp [List.length_take]
          omega
        obtain ⟨⟨o2p, ho⟩, ⟨t2p, ht, hkeys⟩⟩ :=
          ih (name.take i) (by omega) reg
        have hlook : lookupTable (getLogger reg (name.take i)).1.table name = none := by
          rw [ht, lookupTable_append_none _ _ _ hl]
          refine lookupTable_none_of_all_ne _ _ ?_
          intro kv hkv he
          have := hkeys kv hkv
          rw [he, htake] at this
          omega
        rw [loadOrStore]
        simp only [allocLogger, hlook]
        constructor
        · refine ⟨o2p ++ [⟨some (getLogger reg (name.take i)).2, name, 0, false, []⟩], ?_⟩
          rw [ho, List.append_assoc]
        · refine ⟨t2p ++ [(name, (getLogger reg (name.take i)).1.objs.length)], ?_, ?_⟩
          · rw [ht, List.append_assoc]
          · intro kv hkv
            rcases List.mem_append.mp hkv with hk1 | hk2
            · have := hkeys kv hk1
              rw [htake] at this
              omega
            · simp only [List.mem_singleton] at hk2
              simp [hk2]

theorem getLogger_extend (reg : Registry) (name : List Char) :
    (∃ o2, (getLogger reg name).1.objs = reg.objs ++ o2)
    ∧ (∃ t2, (getLogger reg name).1.table = reg.table ++ t2
        ∧ ∀ kv ∈ t2, kv.1.length ≤ name.length) :=
  getLogger_extend_aux (name.length + 1) name (by omega) reg

/-- After `GetLogger`, the name maps to exactly the returned logger. -/
theorem getLogger_registered (reg : Registry) (name : List Char) :
    lookupTable (getLogger reg name).1.table name = some (getLogger reg name).2 := by
  cases hl : lookupTable reg.table name with
  | some id =>
    rw [getLogger_hit _ _ _ hl]
    exact hl
  | none =>
    rw [getLogger_miss _ _ hl, loadOrStore]
    cases h2 : lookupTable (createLogger reg name).1.table name with
    | some id2 => simp [h2]
    | none =>
      simp only [h2]
      exact lookupTable_store_self _ _ _ h2

/-- A stored association survives any later `GetLogger` call. -/
theorem getLogger_preserves (reg : Registry) (m n : List Char) (v : Nat)
    (h : lookupTable reg.table n = some v) :
    lookupTable (getLogger reg m).1.table n = some v := by
  obtain ⟨-, t2, ht, -⟩ := getLogger_extend reg m
  rw [ht]
  exact lookupTable_append_some _ _ _ _ h

/-- `Level()` of a registry logger object. -/
def RLogger.Level (L : RLogger) : Int := L.level

/-- `Propagate()` of a registry logger object. -/
def RLogger.Propagate (L : RLogger) : Bool := !L.noPropagate

/-- A sequence of `GetLogger` calls, returning the final registry and the
list of (name, returned logger) pairs in call order. -/
def runGetLoggers : Registry → List (List Char) → Registry × List (List Char × Nat)
  | reg, [] => (reg, [])
  | reg, n :: rest =>
    let r := getLogger reg n
    let rs := runGetLoggers r.1 rest
    (rs.1, (n, r.2) :: rs.2)

theorem runGetLoggers_preserves :
    ∀ (names : List (List Char)) (reg : Registry) (n : List Char) (v : Nat),
      lookupTable reg.table n = some v →
      lookupTable (runGetLoggers reg names).1.table n = some v := by
  intro names
  induction names with
  | nil => intro reg n v h; exact h
  | cons m rest ih =>
    intro reg n v h
    exact ih _ _ _ (getLogger_preserves reg m n v h)

theorem runGetLoggers_result :
    ∀ (names : List (List Char)) (reg : Registry) (X : List Char) (i : Nat),
      (X, i) ∈ (runGetLoggers reg names).2 →
      lookupTable (runGetLoggers reg names).1.table X = some i := by
  intro names
  induction names with
  | nil =>
    intro reg X i h
    simp [runGetLoggers] at h
  | cons m rest ih =>
    intro reg X i h
    have h2 : (X, i) = (m, (getLogger reg m).2)
        ∨ (X, i) ∈ (runGetLoggers (getLogger reg m).1 rest).2 := by
      simpa [runGetLoggers] using h
    rcases h2 with he | hm
    · have hX : X = m := congrArg Prod.fst he
      have hv : i = (getLogger reg m).2 := congrArg Prod.snd he
      subst hX
      subst hv
      exact runGetLoggers_preserves rest _ _ _ (getLogger_registered reg X)
    · exact ih _ _ _ hm

/-- Claim C2: every caller of the no-options get-or-create operation with
the same name receives the same logger: over any sequence of `GetLogger`
calls from any starting registry, any two results returned for the same
name are the same object identity. -/
theorem C2_singleton_per_name (reg : Registry) (names : List (List Char)) (X : List Char)
    (i j : Nat)
    (hi : (X, i) ∈ (runGetLoggers reg names).2)
    (hj : (X, j) ∈ (runGetLoggers reg names).2) :
    i = j := by
  have h1 := runGetLoggers_result names reg X i hi
  have h2 := runGetLoggers_result names reg X j hj
  rw [h1] at h2
  exact Option.some_injective _ h2

def abName : List Char := ['a', '/', 'b']

/-- Witness for C2: two calls for the name a/b from the empty registry
both return logger 1. -/
theorem C2_singleton_per_name_witness :
    ((abName, 1) ∈ (runGetLoggers ⟨[], []⟩ [abName, abName]).2)
    ∧ ((abName, 1) ∈ (runGetLoggers ⟨[], []⟩ [abName, abName]).2)
    ∧ 1 = 1 :=
  have hmem : (abName, 1) ∈ (runGetLoggers ⟨[], []⟩ [abName, abName]).2 := by
    simp [runGetLoggers, getLogger, lookupTable, lastIndexOfSlash, allocLogger, abName]
  ⟨hmem, hmem, C2_singleton_per_name ⟨[], []⟩ [abName, abName] abName 1 1 hmem hmem⟩

/-- A fresh `GetLogger` allocates the logger object with zero-value flags
and no handlers, parented per the last-separator prefix. -/
theorem getLogger_creates (reg : Registry) (name : List Char)
    (hmiss : lookupTable reg.table name = none) :
    ∃ po : Option Nat,
      ((getLogger reg name).1.objs)[(getLogger reg name).2]?
        = some ⟨po, name, 0, false, []⟩
      ∧ (match lastIndexOfSlash name with
         | none => po = none
         | some i => ∃ pid, po = some pid
             ∧ lookupTable (getLogger reg name).1.table (name.take i) = some pid) := by
  rw [getLogger_miss _ _ hmiss, createLogger]
  cases hls : lastIndexOfSlash name with
  | none =>
    refine ⟨none, ?_, by simp [hls]⟩
    rw [loadOrStore, allocLogger]
    simp only [hmiss]
    simp
  | some i =>
    have hi := lastIndexOfSlash_lt name i hls
    have htake : (name.take i).length = i := by
      simp [List.length_take]
      omega
    obtain ⟨-, t2p, ht, hkeys⟩ := getLogger_extend reg (name.take i)
    have hlook : lookupTable (getLogger reg (name.take i)).1.table name = none := by
      rw [ht, lookupTable_append_none _ _ _ hmiss]
      refine lookupTable_none_of_all_ne _ _ ?_
      intro kv hkv he
      have := hkeys kv hkv
      rw [he, htake] at this
      omega
    refine ⟨some (getLogger reg (name.take i)).2, ?_, ?_⟩
    · rw [loadOrStore]
      simp only [allocLogger, hlook]
      simp
    · simp only [hls]
      refine ⟨(getLogger reg (name.take i)).2, rfl, ?_⟩
      rw [loadOrStore]
      simp only [allocLogger, hlook]
      exact lookupTable_append_some _ _ _ _ (getLogger_registered reg (name.take i))


/-- Claim C6: the logger created for a name containing the separator has
as parent exactly the (created-if-absent) logger registered for the prefix
up to and excluding the last separator, and a later `GetLogger` of that
prefix returns the parent itself; a logger whose name has no separator has
no parent. -/
theorem C6_parent_chain (reg : Registry) (name : List Char)
    (hmiss : lookupTable reg.table name = none) :
    ∃ obj : RLogger,
      ((getLogger reg name).1.objs)[(getLogger reg name).2]? = some obj
      ∧ obj.name = name
      ∧ (match lastIndexOfSlash name with
         | none => obj.parent = none
         | some i => ∃ pid, obj.parent = some pid
             ∧ lookupTable (getLogger reg name).1.table (name.take i) = some pid
             ∧ getLogger (getLogger reg name).1 (name.take i)
                 = ((getLogger reg name).1, pid)) := by
  obtain ⟨po, hobj, hpar⟩ := getLogger_creates reg name hmiss
  refine ⟨⟨po, name, 0, false, []⟩, hobj, rfl, ?_⟩
  cases hls : lastIndexOfSlash name with
  | none =>
    simp only [hls] at hpar
    simpa using hpar
  | some i =>
    simp only [hls] at hpar
    obtain ⟨pid, hpo, hlk⟩ := hpar
    exact ⟨pid, hpo, hlk, getLogger_hit _ _ _ hlk⟩

/-- Claim C10: a logger freshly created by `GetLogger` for a name not
previously requested starts with `Level()` equal to `WarnLevel` (numeric
value 0), `Propagate()` true, and an empty handler set. -/
theorem C10_new_logger_defaults (reg : Registry) (name : List Char)
    (hmiss : lookupTable reg.table name = none) :
    ∃ obj : RLogger,
      ((getLogger reg name).1.objs)[(getLogger reg name).2]? = some obj
      ∧ obj.Level = WarnLevel ∧ obj.Propagate = true ∧ obj.handlers = [] := by
  obtain ⟨po, hobj, -⟩ := getLogger_creates reg name hmiss
  exact ⟨⟨po, name, 0, false, []⟩, hobj, rfl, rfl, rfl⟩

/-- Witness for C6 at the fresh name a/b. -/
theorem C6_parent_chain_witness :
    (lookupTable (⟨[], []⟩ : Registry).table abName = none)
    ∧ (∃ obj : RLogger,
        ((getLogger ⟨[], []⟩ abName).1.objs)[(getLogger ⟨[], []⟩ abName).2]? = some obj
        ∧ obj.name = abName
        ∧ (match lastIndexOfSlash abName with
           | none => obj.parent = none
           | some i => ∃ pid, obj.parent = some pid
               ∧ lookupTable (getLogger ⟨[], []⟩ abName).1.table (abName.take i) = some pid
               ∧ getLogger (getLogger ⟨[], []⟩ abName).1 (abName.take i)
                   = ((getLogger ⟨[], []⟩ abName).1, pid))) :=
  ⟨rfl, C6_parent_chain ⟨[], []⟩ abName rfl⟩

/-- Witness for C10 at the fresh name a/b. -/
theorem C10_new_logger_defaults_witness :
    (lookupTable (⟨[], []⟩ : Registry).table abName = none)
    ∧ (∃ obj : RLogger,
        ((getLogger ⟨[], []⟩ abName).1.objs)[(getLogger ⟨[], []⟩ abName).2]? = some obj
        ∧ obj.Level = WarnLevel ∧ obj.Propagate = true ∧ obj.handlers = []) :=
  ⟨rfl, C10_new_logger_defaults ⟨[], []⟩ abName rfl⟩


end Logging
